import Mathlib

/-!
Verification of the autograd tutorial notebook (`src/autogradyt_tutorial.ipynb`).

The notebook builds small computation graphs out of elementwise tensor
operations (`sin`, multiplication by a constant, addition of a constant,
`sum`), runs backward passes, toggles gradient tracking, runs one SGD
training step, and calls the functional Jacobian API.  All tensor and
autograd machinery lives in the external library (PyTorch); only the
notebook's call sequences are in this repository, so the library's
documented behaviour is modelled here from the spec, and the notebook's
concrete graphs and loops are embedded on top of it.

Tensors are modelled as functions `Fin n → R` over an abstract scalar
type `R`; the transcendental functions used by the notebook (`sin`,
`cos`, `exp`) are passed in through an `Ops` record so that every
definition stays computable, and the theorems instantiate `R := ℝ`
with the genuine `Real.sin`, `Real.cos`, `Real.exp`.
-/

namespace AutogradYT

/-- Modelled from the spec: the elementwise scalar functions the external
library supplies (`torch.sin` and the cosine its backward pass uses).
They are parameters so the computation-graph model stays computable;
theorems instantiate them with `Real.sin` and `Real.cos`. -/
structure Ops (R : Type) where
  sinF : R → R
  cosF : R → R

/-- The elementwise computation graphs the notebook builds over one input
tensor: the identity leaf `a`, `torch.sin`, multiplication by a constant
(`c = 2 * b`) and addition of a constant (`d = c + 1`). -/
inductive Expr (R : Type) where
  | leaf : Expr R
  | sine : Expr R → Expr R
  | cmul : R → Expr R → Expr R
  | cadd : R → Expr R → Expr R

/-- Forward evaluation of a graph at one scalar input (the notebook's
operations are all elementwise). -/
def evalE [Mul R] [Add R] (ops : Ops R) : Expr R → R → R
  | .leaf, x => x
  | .sine e, x => ops.sinF (evalE ops e x)
  | .cmul c e, x => c * evalE ops e x
  | .cadd _c e, x => evalE ops e x + _c

/-- Modelled from the spec: the backward pass of the external library's
autograd engine on an elementwise graph.  `up` is the incoming (upstream)
gradient; each node multiplies it by its local derivative — `cos` for
`sin` (the spec: "the gradient of sin(x) is cos(x)"), the constant for a
constant multiplication, and `1` for a constant addition — and hands it to
its input.  The value returned at the leaf is what `backward` accumulates
into the input's `.grad`. -/
def vjpE [Mul R] [Add R] (ops : Ops R) : Expr R → R → R → R
  | .leaf, _x, up => up
  | .sine e, x, up => vjpE ops e x (up * ops.cosF (evalE ops e x))
  | .cmul c e, x, up => vjpE ops e x (up * c)
  | .cadd _c e, x, up => vjpE ops e x up

/-- Modelled from the spec: `out.backward()` for `out = d.sum()`.  The
derivative of a sum with respect to each element is `1`, so the backward
pass seeds every element's upstream gradient with `1`; the result is the
gradient stored in the input's `.grad`. -/
def backwardSum [Mul R] [Add R] [One R] (ops : Ops R) (e : Expr R)
    (x : Fin n → R) : Fin n → R :=
  fun i => vjpE ops e (x i) 1

/-- `torch.linspace(lo, hi, steps)`: `steps` evenly spaced values from
`lo` to `hi` inclusive. -/
def linspace [DivisionRing K] (lo hi : K) (steps : ℕ) : Fin steps → K :=
  fun i => lo + (hi - lo) * (i : ℕ) / ((steps : K) - 1)

/-- The graph of `d` in the notebook's first example:
`b = torch.sin(a)`, `c = 2 * b`, `d = c + 1`. -/
def dExpr (R : Type) [One R] [OfNat R 2] : Expr R :=
  .cadd 1 (.cmul 2 (.sine .leaf))

/-- C1: in the notebook's first example, with
`a = torch.linspace(0, 2*pi, steps=25, requires_grad=True)`,
`b = sin(a)`, `c = 2*b`, `d = c + 1`, `out = d.sum()`, calling
`out.backward()` sets `a.grad` elementwise to `2*cos(a[i])` for every
index `i`; and this is the true derivative: the function computed by the
`d` graph, `x ↦ 2*sin(x) + 1`, has derivative `2*cos(x)` everywhere (the
derivative of `sin` is `cos`, scaled by the factor `2` and unaffected by
the added constant `1`). -/
theorem backward_of_first_example :
    (∀ i : Fin 25, backwardSum ⟨Real.sin, Real.cos⟩ (dExpr ℝ)
        (linspace 0 (2 * Real.pi) 25) i
        = 2 * Real.cos (linspace 0 (2 * Real.pi) 25 i)) ∧
    (∀ t : ℝ, HasDerivAt (evalE ⟨Real.sin, Real.cos⟩ (dExpr ℝ))
        (2 * Real.cos t) t) := by
  constructor
  · intro i
    simp [backwardSum, dExpr, vjpE, evalE]
  · intro t
    have h : HasDerivAt (fun s : ℝ => 2 * Real.sin s + 1) (2 * Real.cos t) t := by
      simpa using ((Real.hasDerivAt_sin t).const_mul (2 : ℝ)).add_const (1 : ℝ)
    have hfun : evalE ⟨Real.sin, Real.cos⟩ (dExpr ℝ)
        = fun s : ℝ => 2 * Real.sin s + 1 := by
      funext s
      simp [evalE, dExpr]
    rw [hfun]
    exact h

/-- Modelled from the spec: `tensor.backward(v)` for a (possibly
non-scalar) output tensor built by the elementwise graph `e` from the
tracked input `x`.  With no gradient argument (`v = none`) the external
library requires the calling tensor to contain a single element and
raises a runtime error otherwise (gradients can only be implicitly
created for scalar outputs); with an explicit gradient vector `v` of the
output's shape it multiplies `v` into the Jacobian and returns the
gradient populated into the input's `.grad`. -/
def tensorBackward [Mul R] [Add R] [One R] (ops : Ops R) (e : Expr R)
    (x : Fin n → R) (v : Option (Fin n → R)) : Except String (Fin n → R) :=
  match v with
  | none =>
      if _h : n = 1 then
        .ok (fun i => vjpE ops e (x i) 1)
      else
        .error "grad can be implicitly created only for scalar outputs"
  | some vv => .ok (fun i => vjpE ops e (x i) (vv i))

/-- C2: calling `backward()` with no argument on a tensor with more than
one element raises a runtime error and the input's grad is not populated
(no gradient is returned); calling `backward(v)` on the same tensor with
an explicit gradient vector `v` of matching shape succeeds and populates
the input's `.grad` with the vector-Jacobian product.  This holds for
every multi-element output tensor built from a tracked input. -/
theorem backward_nonscalar {R : Type} [Mul R] [Add R] [One R] {n : ℕ}
    (hn : 1 < n) (ops : Ops R) (e : Expr R) (x : Fin n → R) :
    tensorBackward ops e x none
      = .error "grad can be implicitly created only for scalar outputs" ∧
    ∀ v : Fin n → R, tensorBackward ops e x (some v)
      = .ok (fun i => vjpE ops e (x i) (v i)) := by
  constructor
  · have hne : n ≠ 1 := by omega
    simp [tensorBackward, hne]
  · intro v
    rfl

/-- Witness for C2, at the notebook's `y` graph (`y = x * 2`, then
doubled) on a 3-element input over `ℚ`. -/
theorem backward_nonscalar_witness :
    (1 < 3) ∧
    (tensorBackward (⟨id, id⟩ : Ops ℚ) (.cmul 2 .leaf)
        (fun _ : Fin 3 => (1 : ℚ)) none
      = .error "grad can be implicitly created only for scalar outputs" ∧
    ∀ v : Fin 3 → ℚ,
      tensorBackward ⟨id, id⟩ (.cmul 2 .leaf) (fun _ : Fin 3 => (1 : ℚ)) (some v)
      = .ok (fun i => vjpE ⟨id, id⟩ (.cmul 2 .leaf)
          ((fun _ : Fin 3 => (1 : ℚ)) i) (v i))) :=
  ⟨by decide,
    backward_nonscalar (by decide) ⟨id, id⟩ (.cmul 2 .leaf)
      (fun _ : Fin 3 => (1 : ℚ))⟩

/-- Modelled from the spec: the external library's gradient-function
nodes, the internal bookkeeping objects recording how a value was
computed, each holding the list of its predecessors (`next_functions`,
with the gradient accumulator of a tracked leaf input at the end of a
chain). -/
inductive GradFn where
  | accumulateGrad : GradFn
  | sinBackward : List GradFn → GradFn
  | mulBackward : List GradFn → GradFn
  | addBackward : List GradFn → GradFn

/-- The `next_functions` list of a gradient-function node (the
accumulator of a leaf has none). -/
def GradFn.nexts : GradFn → List GradFn
  | .accumulateGrad => []
  | .sinBackward ns => ns
  | .mulBackward ns => ns
  | .addBackward ns => ns

/-- Modelled from the spec: the external library's tensor — a
multidimensional numeric array with optional gradient tracking — shown
here as a flat vector of `n` scalars together with its `requires_grad`
flag, its optional gradient-function node (`grad_fn`, `none` for a leaf)
and its optional accumulated gradient (`.grad`). -/
structure Tensor (R : Type) (n : ℕ) where
  data : Fin n → R
  requires_grad : Bool
  grad_fn : Option GradFn
  grad : Option (Fin n → R)

/-- The gradient-function node an operation records for one of its
inputs: the input's own `grad_fn` if it has one, otherwise the gradient
accumulator of the tracked leaf. -/
def nextFn (t : Tensor R n) : GradFn :=
  match t.grad_fn with
  | some f => f
  | none => .accumulateGrad

/-- A fresh leaf tensor (as produced by `torch.linspace` or
`torch.ones` with a `requires_grad` option): no history, no gradient. -/
def leafTensor (data : Fin n → R) (rg : Bool) : Tensor R n :=
  ⟨data, rg, none, none⟩

/-- Modelled from the spec: elementwise `torch.sin` on a tensor.  When
the input is tracked, the output carries a `sinBackward`
gradient-function node pointing back at the input's node. -/
def tsin (ops : Ops R) (t : Tensor R n) : Tensor R n :=
  ⟨fun i => ops.sinF (t.data i), t.requires_grad,
    if t.requires_grad then some (.sinBackward [nextFn t]) else none, none⟩

/-- Modelled from the spec: multiplication of a tensor by a scalar
constant (`c = 2 * b`), recording a `mulBackward` node when tracked. -/
def tcmul [Mul R] (c : R) (t : Tensor R n) : Tensor R n :=
  ⟨fun i => c * t.data i, t.requires_grad,
    if t.requires_grad then some (.mulBackward [nextFn t]) else none, none⟩

/-- Modelled from the spec: addition of a scalar constant to a tensor
(`d = c + 1`), recording an `addBackward` node when tracked. -/
def tcadd [Add R] (c : R) (t : Tensor R n) : Tensor R n :=
  ⟨fun i => t.data i + c, t.requires_grad,
    if t.requires_grad then some (.addBackward [nextFn t]) else none, none⟩

/-- C6: chaining arithmetic operations on tracked tensors builds a
computation graph.  Every tensor produced by an operation on a tracked
tensor carries a gradient-function node, and in the notebook's chain
`b = sin(a)`, `c = 2*b`, `d = c + 1` (for any tracked leaf input `a`),
following `next_functions` from `d`'s `grad_fn` walks back through the
add, multiply and sin nodes to the gradient accumulator for the input,
while the leaf input `a` itself has `grad_fn = None`. -/
theorem grad_fn_chain {R : Type} [Mul R] [Add R] (ops : Ops R) {n : ℕ}
    (av : Fin n → R) (c1 c2 : R) :
    (∀ t : Tensor R n, t.requires_grad = true →
      (tsin ops t).grad_fn.isSome ∧ (tcmul c1 t).grad_fn.isSome ∧
      (tcadd c2 t).grad_fn.isSome) ∧
    (let a := leafTensor av true
     let b := tsin ops a
     let c := tcmul c1 b
     let d := tcadd c2 c
     d.grad_fn = some (.addBackward [.mulBackward [.sinBackward
         [.accumulateGrad]]]) ∧
     ((nextFn d).nexts = [.mulBackward [.sinBackward [.accumulateGrad]]] ∧
      (nextFn c).nexts = [.sinBackward [.accumulateGrad]] ∧
      (nextFn b).nexts = [.accumulateGrad]) ∧
     a.grad_fn = none) := by
  refine ⟨fun t ht => ?_, ?_⟩
  · simp [tsin, tcmul, tcadd, ht]
  · simp [tsin, tcmul, tcadd, leafTensor, nextFn, GradFn.nexts]

/-- Witness for C6, on the notebook's concrete shapes: a 25-element leaf
over `ℚ` with the constants `2` and `1`. -/
theorem grad_fn_chain_witness :
    (∀ t : Tensor ℚ 25, t.requires_grad = true →
      (tsin ⟨id, id⟩ t).grad_fn.isSome ∧ (tcmul 2 t).grad_fn.isSome ∧
      (tcadd 1 t).grad_fn.isSome) ∧
    (let a := leafTensor (fun _ : Fin 25 => (0 : ℚ)) true
     let b := tsin ⟨id, id⟩ a
     let c := tcmul 2 b
     let d := tcadd 1 c
     d.grad_fn = some (.addBackward [.mulBackward [.sinBackward
         [.accumulateGrad]]]) ∧
     ((nextFn d).nexts = [.mulBackward [.sinBackward [.accumulateGrad]]] ∧
      (nextFn c).nexts = [.sinBackward [.accumulateGrad]] ∧
      (nextFn b).nexts = [.accumulateGrad]) ∧
     a.grad_fn = none) :=
  grad_fn_chain ⟨id, id⟩ (fun _ : Fin 25 => (0 : ℚ)) 2 1

/-- Modelled from the spec: the in-place `torch.sin_(a)`.  The external
library stops an in-place operation on a leaf variable (a tensor with no
`grad_fn`) that requires grad, raising a runtime error instead of
mutating the tensor; otherwise it overwrites the data in place. -/
def tsin_inplace (ops : Ops R) (t : Tensor R n) : Except String (Tensor R n) :=
  if t.requires_grad && t.grad_fn.isNone then
    .error "a leaf Variable that requires grad is being used in an in-place operation"
  else
    .ok ⟨fun i => ops.sinF (t.data i), t.requires_grad, t.grad_fn, t.grad⟩

/-- C3: for every leaf tensor with `requires_grad=True` (as with
`a = torch.linspace(0, 2*pi, steps=25, requires_grad=True)`), attempting
the in-place operation `torch.sin_(a)` raises a runtime error rather
than mutating the tensor: no updated tensor is produced. -/
theorem sin_inplace_on_leaf_errors {R : Type} (ops : Ops R) {n : ℕ}
    (t : Tensor R n) (hrg : t.requires_grad = true) (hleaf : t.grad_fn = none) :
    tsin_inplace ops t
      = .error "a leaf Variable that requires grad is being used in an in-place operation" := by
  simp [tsin_inplace, hrg, hleaf]

/-- Witness for C3: the notebook's `a`, embedded over `ℚ` with the
values of `linspace 0 6 25` (a tracked leaf — the error does not depend
on the data). -/
theorem sin_inplace_on_leaf_errors_witness :
    (leafTensor (linspace 0 6 25) true : Tensor ℚ 25).requires_grad = true ∧
    (leafTensor (linspace 0 6 25) true : Tensor ℚ 25).grad_fn = none ∧
    tsin_inplace ⟨id, id⟩ (leafTensor (linspace 0 6 25) true : Tensor ℚ 25)
      = .error "a leaf Variable that requires grad is being used in an in-place operation" :=
  ⟨rfl, rfl, sin_inplace_on_leaf_errors ⟨id, id⟩ (leafTensor (linspace 0 6 25) true) rfl rfl⟩

/-- Changing the `requires_grad` flag on a tensor directly
(`a.requires_grad = False`). -/
def setRequiresGrad (t : Tensor R n) (b : Bool) : Tensor R n :=
  ⟨t.data, b, t.grad_fn, t.grad⟩

/-- C7: gradient tracking is optional per tensor.  While `a` has
`requires_grad=True`, the derived tensor `b1 = 2 * a` carries a
`grad_fn` (history is recorded); after setting
`a.requires_grad = False`, the tensor `b2 = 2 * a` computed from it
carries no `grad_fn` (no history is recorded), while the computed values
of `b1` and `b2` are the same. -/
theorem requires_grad_toggle {R : Type} [Mul R] {n : ℕ} (a : Tensor R n)
    (ha : a.requires_grad = true) (c : R) :
    (tcmul c a).grad_fn.isSome ∧
    (tcmul c (setRequiresGrad a false)).grad_fn = none ∧
    (tcmul c (setRequiresGrad a false)).data = (tcmul c a).data := by
  refine ⟨?_, ?_, ?_⟩
  · simp [tcmul, ha]
  · simp [tcmul, setRequiresGrad]
  · rfl

/-- Witness for C7: the notebook's `a = torch.ones(2, 3,
requires_grad=True)` (six elements) with the constant `2`, over `ℚ`. -/
theorem requires_grad_toggle_witness :
    (leafTensor (fun _ : Fin 6 => (1 : ℚ)) true).requires_grad = true ∧
    ((tcmul 2 (leafTensor (fun _ : Fin 6 => (1 : ℚ)) true)).grad_fn.isSome ∧
     (tcmul 2 (setRequiresGrad (leafTensor (fun _ : Fin 6 => (1 : ℚ)) true)
        false)).grad_fn = none ∧
     (tcmul 2 (setRequiresGrad (leafTensor (fun _ : Fin 6 => (1 : ℚ)) true)
        false)).data
       = (tcmul 2 (leafTensor (fun _ : Fin 6 => (1 : ℚ)) true)).data) :=
  ⟨rfl, requires_grad_toggle (leafTensor (fun _ : Fin 6 => (1 : ℚ)) true) rfl 2⟩

/-- Modelled from the spec: elementwise addition of two tensors
(`x + y`), under an explicit autograd-enabled flag `gradMode` (`true`
for plain execution, `false` inside `torch.no_grad()`).  The output's
values never depend on the flag; history (a `grad_fn` with the two
inputs as `next_functions`) is recorded only when grad mode is on and
some input is tracked. -/
def taddPair [Add R] (gradMode : Bool) (x y : Tensor R n) : Tensor R n :=
  ⟨fun i => x.data i + y.data i,
    gradMode && (x.requires_grad || y.requires_grad),
    if gradMode && (x.requires_grad || y.requires_grad) then
      some (.addBackward [nextFn x, nextFn y])
    else none, none⟩

/-- The notebook's `add_tensors1(x, y) = x + y`, run with autograd
enabled. -/
def add_tensors1 [Add R] (x y : Tensor R n) : Tensor R n :=
  taddPair true x y

/-- The notebook's `add_tensors2(x, y) = x + y`, decorated with
`@torch.no_grad()`. -/
def add_tensors2 [Add R] (x y : Tensor R n) : Tensor R n :=
  taddPair false x y

/-- C9: disabling autograd changes only history tracking, never computed
values.  For all inputs `x`, `y`, `add_tensors2` (`x + y` under the
`torch.no_grad()` decorator) returns a result elementwise equal to
`add_tensors1` (plain `x + y`), and a sum computed inside a
`torch.no_grad()` block has the same values as one computed with grad
enabled, differing only in that the no-grad result carries no
`grad_fn`. -/
theorem no_grad_same_values {R : Type} [Add R] {n : ℕ} (x y : Tensor R n) :
    (∀ i, (add_tensors2 x y).data i = (add_tensors1 x y).data i) ∧
    (add_tensors2 x y).grad_fn = none ∧
    (taddPair false x y).data = (taddPair true x y).data := by
  refine ⟨fun i => rfl, ?_, rfl⟩
  simp [add_tensors2, taddPair]

/-- Modelled from the spec: one learning weight of the model together
with its stored gradient (`.grad`, `none` until a backward pass has
populated it), as inspected through `model.layer2.weight` and
`model.layer2.weight.grad` in the training cells. -/
structure Param (R : Type) (n : ℕ) where
  weight : Fin n → R
  grad : Option (Fin n → R)

/-- Modelled from the spec: the effect of `loss.backward()` on one
learning weight.  The pass computes the gradient `g` of the loss for
this weight and accumulates it additively into `.grad` (an absent
gradient counts as zero); the weight values themselves are not
touched. -/
def lossBackward [Add R] [Zero R] (g : Fin n → R) (p : Param R n) : Param R n :=
  ⟨p.weight, some (fun i => (p.grad.getD (fun _ => 0)) i + g i)⟩

/-- Modelled from the spec: the effect of `optimizer.step()` (basic
stochastic gradient descent with learning rate `lr`) on one learning
weight: the weight moves against its stored gradient, and the stored
gradient is left as it is.  A parameter with no stored gradient is
unchanged. -/
def sgdStep [Mul R] [Sub R] (lr : R) (p : Param R n) : Param R n :=
  match p.grad with
  | none => p
  | some g => ⟨fun i => p.weight i - lr * g i, some g⟩

/-- Modelled from the spec: `optimizer.zero_grad(set_to_none=False)`
resets the stored gradient of every parameter to an all-zero tensor (not
to `None`). -/
def zeroGrad [Zero R] (p : Param R n) : Param R n :=
  ⟨p.weight, some (fun _ => 0)⟩

/-- C5: `loss.backward()` computes and stores a gradient in `.grad` for
each learning weight of the model but leaves the weight values
themselves unchanged; only `optimizer.step()` modifies the weight values
(moving each weight by `-lr * grad`), and it leaves the stored gradients
unchanged. -/
theorem backward_stores_grad_step_moves_weights {R : Type} [Add R] [Zero R]
    [Mul R] [Sub R] {n : ℕ} (p : Param R n) (g : Fin n → R) (lr : R) :
    ((lossBackward g p).weight = p.weight ∧
     (lossBackward g p).grad.isSome) ∧
    ((sgdStep lr p).grad = p.grad ∧
     ∀ g0, p.grad = some g0 →
       (sgdStep lr p).weight = fun i => p.weight i - lr * g0 i) := by
  refine ⟨⟨rfl, rfl⟩, ?_, ?_⟩
  · cases hp : p.grad <;> simp [sgdStep, hp]
  · intro g0 hg0
    simp [sgdStep, hg0]

/-- Witness for C5: a single two-element weight over `ℚ` whose gradient
has been populated, with learning rate `1/1000`. -/
theorem backward_stores_grad_step_moves_weights_witness :
    (((lossBackward (fun _ => 1) (⟨fun _ => 5, some (fun _ => 7)⟩ :
        Param ℚ 2)).weight = (⟨fun _ => 5, some (fun _ => 7)⟩ :
        Param ℚ 2).weight ∧
      (lossBackward (fun _ => 1) (⟨fun _ => 5, some (fun _ => 7)⟩ :
        Param ℚ 2)).grad.isSome) ∧
     ((sgdStep (1/1000) (⟨fun _ => 5, some (fun _ => 7)⟩ :
        Param ℚ 2)).grad = (⟨fun _ => 5, some (fun _ => 7)⟩ :
        Param ℚ 2).grad ∧
      ∀ g0, (⟨fun _ => 5, some (fun _ => 7)⟩ : Param ℚ 2).grad = some g0 →
        (sgdStep (1/1000) (⟨fun _ => 5, some (fun _ => 7)⟩ :
          Param ℚ 2)).weight
          = fun i => (⟨fun _ => 5, some (fun _ => 7)⟩ :
              Param ℚ 2).weight i - (1/1000) * g0 i)) :=
  backward_stores_grad_step_moves_weights
    (⟨fun _ => 5, some (fun _ => 7)⟩ : Param ℚ 2) (fun _ => 1) (1/1000)

/-- Repeated backward passes accumulate additively: starting from a
populated gradient `G`, `k` further passes for the same loss (per-pass
gradient `g`) leave the gradient at `G + k * g`. -/
theorem lossBackward_iterate {R : Type} [CommSemiring R] {n : ℕ}
    (g G : Fin n → R) :
    ∀ (k : ℕ) (p : Param R n), p.grad = some G →
      ((lossBackward g)^[k] p).grad = some (fun i => G i + (k : R) * g i) := by
  intro k
  induction k with
  | zero =>
      intro p hp
      rw [Function.iterate_zero_apply, hp]
      congr 1
      funext i
      simp
  | succ k ih =>
      intro p hp
      rw [Function.iterate_succ_apply']
      have hq := ih p hp
      have hgrad : (lossBackward g ((lossBackward g)^[k] p)).grad
          = some (fun i =>
              ((((lossBackward g)^[k] p).grad.getD (fun _ => 0)) i + g i)) := rfl
      rw [hgrad, hq]
      simp only [Option.getD_some]
      congr 1
      funext i
      push_cast
      ring

/-- C8: without `optimizer.zero_grad()` between backward passes,
gradients accumulate additively — running `loss.backward()` `k`
additional times for the same loss (per-pass gradient `g`) adds `k`
times the single-pass gradient to each weight's `.grad`; and a
subsequent `optimizer.zero_grad(set_to_none=False)` resets the
parameter's `.grad` to an all-zero tensor, not to `None`. -/
theorem grad_accumulates_and_zero_grad {R : Type} [CommSemiring R] {n : ℕ}
    (p : Param R n) (g G : Fin n → R) (k : ℕ) (hp : p.grad = some G) :
    ((lossBackward g)^[k] p).grad = some (fun i => G i + (k : R) * g i) ∧
    ∀ q : Param R n, (zeroGrad q).grad = some (fun _ => 0) :=
  ⟨lossBackward_iterate g G k p hp, fun _ => rfl⟩

/-- Witness for C8: a one-element weight over `ℚ` whose gradient holds
`2`, hit by five more backward passes of per-pass gradient `3`. -/
theorem grad_accumulates_and_zero_grad_witness :
    (⟨fun _ => 0, some (fun _ => 2)⟩ : Param ℚ 1).grad = some (fun _ => 2) ∧
    (((lossBackward (fun _ => 3))^[5]
        (⟨fun _ => 0, some (fun _ => 2)⟩ : Param ℚ 1)).grad
      = some (fun i => (fun _ => (2 : ℚ)) i + ((5 : ℕ) : ℚ) * (fun _ => (3 : ℚ)) i) ∧
     ∀ q : Param ℚ 1, (zeroGrad q).grad = some (fun _ => 0)) :=
  ⟨rfl, grad_accumulates_and_zero_grad
    (⟨fun _ => 0, some (fun _ => 2)⟩ : Param ℚ 1)
    (fun _ => 3) (fun _ => 2) 5 rfl⟩

/-- The squared Euclidean norm of a vector; `y.data.norm() < 1000` in
the notebook's loop guard is equivalent to `normSq y < 1000 * 1000`
(see `norm_lt_iff_normSq_lt`). -/
def normSq [CommSemiring K] (y : Fin n → K) : K :=
  ∑ i, y i * y i

/-- The loop guard embedding is faithful: for a real vector, the
Euclidean norm is below `1000` exactly when the squared norm is below
`1000 * 1000`. -/
theorem norm_lt_iff_normSq_lt {n : ℕ} (y : Fin n → ℝ) :
    Real.sqrt (normSq y) < 1000 ↔ normSq y < 1000 * 1000 := by
  rw [Real.sqrt_lt' (by norm_num : (0 : ℝ) < 1000)]
  norm_num

/-- The notebook's doubling loop body, with explicit fuel:
`while y.data.norm() < 1000: y = y * 2`, returning the final `y` (or
`none` if the fuel runs out before the guard fails). -/
def doubleLoopAux [LinearOrderedField K] : ℕ → (Fin n → K) → Option (Fin n → K)
  | 0, _ => none
  | fuel + 1, y =>
      if normSq y < 1000 * 1000 then doubleLoopAux fuel (fun i => y i * 2)
      else some y

/-- The notebook's `do_some_doubling(x)`: `y = x * 2`, then the doubling
loop, returning `y`. -/
def do_some_doubling [LinearOrderedField K] (fuel : ℕ) (x : Fin n → K) :
    Option (Fin n → K) :=
  doubleLoopAux fuel (fun i => x i * 2)

/-- Doubling a vector multiplies its squared norm by `4`. -/
theorem normSq_double [CommSemiring K] (y : Fin n → K) :
    normSq (fun i => y i * 2) = normSq y * 4 := by
  rw [normSq, normSq, Finset.sum_mul]
  exact Finset.sum_congr rfl fun i _ => by ring

/-- With enough fuel, the loop exits, and the vector it returns has
squared norm at least `1000 * 1000`. -/
theorem doubleLoopAux_exits [LinearOrderedField K] :
    ∀ (fuel : ℕ) (y : Fin n → K),
      (1000 * 1000 : K) ≤ normSq y * 4 ^ fuel →
      ∃ z, doubleLoopAux (fuel + 1) y = some z ∧ (1000 * 1000 : K) ≤ normSq z := by
  intro fuel
  induction fuel with
  | zero =>
      intro y hy
      simp only [pow_zero, mul_one] at hy
      exact ⟨y, by simp [doubleLoopAux, not_lt.mpr hy], hy⟩
  | succ f ih =>
      intro y hy
      by_cases hguard : normSq y < 1000 * 1000
      · have hnext : (1000 * 1000 : K) ≤ normSq (fun i => y i * 2) * 4 ^ f := by
          rw [normSq_double]
          calc (1000 * 1000 : K) ≤ normSq y * 4 ^ (f + 1) := hy
            _ = normSq y * 4 * 4 ^ f := by ring
        obtain ⟨z, hz, hz2⟩ := ih (fun i => y i * 2) hnext
        exact ⟨z, by rw [doubleLoopAux, if_pos hguard]; exact hz, hz2⟩
      · exact ⟨y, by rw [doubleLoopAux, if_neg hguard], not_lt.mp hguard⟩

/-- Squared norms are nonnegative, and positive at a nonzero vector. -/
theorem normSq_pos_of_ne_zero [LinearOrderedCommRing K] {n : ℕ}
    {x : Fin n → K} (hx : x ≠ 0) : 0 < normSq x := by
  obtain ⟨i, hi⟩ := Function.ne_iff.mp hx
  have hterm : (0 : K) < x i * x i := by
    have := mul_self_nonneg (x i)
    rcases this.lt_or_eq with h | h
    · exact h
    · exact absurd (mul_self_eq_zero.mp h.symm) hi
  calc (0 : K) < x i * x i := hterm
    _ ≤ ∑ j, x j * x j :=
        Finset.single_le_sum (fun j _ => mul_self_nonneg (x j))
          (Finset.mem_univ i)

/-- On the all-zero vector the guard never fails: the loop body never
returns, whatever the fuel. -/
theorem doubleLoopAux_zero [LinearOrderedField K] {n : ℕ} :
    ∀ fuel : ℕ, doubleLoopAux fuel (fun _ : Fin n => (0 : K)) = none := by
  intro fuel
  induction fuel with
  | zero => rfl
  | succ f ih =>
      have hguard : normSq (fun _ : Fin n => (0 : K)) < 1000 * 1000 := by
        simp [normSq]
      have hdouble : (fun i : Fin n => (0 : K) * 2) = fun _ => 0 := by
        funext i
        ring
      rw [doubleLoopAux, if_pos hguard, hdouble, ih]

/-- Counterexample to C4 as stated: the doubling loop does not terminate
for every input vector — started from the all-zero 3-vector, `y` stays
zero, the norm threshold is never exceeded, and no amount of fuel makes
`do_some_doubling` return. -/
theorem doubling_at_zero_diverges :
    ¬ ∃ (fuel : ℕ) (z : Fin 3 → ℚ),
        do_some_doubling fuel (fun _ => 0) = some z := by
  rintro ⟨fuel, z, hz⟩
  have h0 : do_some_doubling fuel (fun _ : Fin 3 => (0 : ℚ)) = none := by
    have hdouble : (fun i : Fin 3 => (0 : ℚ) * 2) = fun _ => 0 := by
      funext i
      ring
    rw [do_some_doubling, hdouble]
    exact doubleLoopAux_zero fuel
  rw [h0] at hz
  exact Option.noConfusion hz

/-- C4 (amended): the repeated-doubling loop (`y = x * 2`;
`while norm(y) < 1000: y = y * 2`), as written inline and in
`do_some_doubling`, terminates for every input vector `x` other than the
zero vector, exiting with `norm(y) >= 1000` (squared norm at least
`1000 * 1000`). -/
theorem doubling_terminates_of_ne_zero {K : Type} [LinearOrderedField K]
    [Archimedean K] {n : ℕ} (x : Fin n → K) (hx : x ≠ 0) :
    ∃ (fuel : ℕ) (z : Fin n → K),
      do_some_doubling fuel x = some z ∧ (1000 * 1000 : K) ≤ normSq z := by
  have h0 : 0 < normSq x := normSq_pos_of_ne_zero hx
  have h4 : (0 : K) < normSq x * 4 := by positivity
  obtain ⟨m, hm⟩ :=
    pow_unbounded_of_one_lt ((1000 * 1000 : K) / (normSq x * 4))
      (by norm_num : (1 : K) < 4)
  have hfuel : (1000 * 1000 : K) ≤ normSq (fun i => x i * 2) * 4 ^ m := by
    rw [normSq_double]
    have := (div_lt_iff₀ h4).mp hm
    calc (1000 * 1000 : K) ≤ 4 ^ m * (normSq x * 4) := this.le
      _ = normSq x * 4 * 4 ^ m := by ring
  obtain ⟨z, hz, hz2⟩ := doubleLoopAux_exits m (fun i => x i * 2) hfuel
  exact ⟨m + 1, z, hz, hz2⟩

/-- Witness for C4 (amended): the constant 3-vector `1000` over `ℚ` is
nonzero, and the loop exits on it above the threshold. -/
theorem doubling_terminates_of_ne_zero_witness :
    (fun _ : Fin 3 => (1000 : ℚ)) ≠ 0 ∧
    ∃ (fuel : ℕ) (z : Fin 3 → ℚ),
      do_some_doubling fuel (fun _ : Fin 3 => (1000 : ℚ)) = some z ∧
      (1000 * 1000 : ℚ) ≤ normSq z := by
  have hx : (fun _ : Fin 3 => (1000 : ℚ)) ≠ 0 := by
    intro h
    have h0 := congrFun h 0
    norm_num at h0
  exact ⟨hx, doubling_terminates_of_ne_zero (fun _ : Fin 3 => (1000 : ℚ)) hx⟩

/-- The notebook's `exp_adder(x, y) = 2 * x.exp() + 3 * y`, elementwise
on two same-shaped input tensors.  The exponential is a parameter so the
definition stays computable; theorems instantiate it with `Real.exp`. -/
def exp_adder [Mul R] [Add R] [OfNat R 2] [OfNat R 3] (expF : R → R)
    (x y : Fin n → R) : Fin n → R :=
  fun i => 2 * expF (x i) + 3 * y i

/-- C10: for every input pair `(x, y)`,
`torch.autograd.functional.jacobian` applied to
`exp_adder(x, y) = 2 * exp(x) + 3 * y` returns the pair of Jacobians
`(diag(2 * e^(x_i)), diag(3))`: the partial derivative of output `i`
with respect to `x_j` is `2 * e^(x_j)` when `i = j` and `0` otherwise,
and with respect to `y_j` it is `3` when `i = j` and `0` otherwise.  In
particular, for single-element inputs the two derivative values are
`2 * e^x` and `3`. -/
theorem exp_adder_jacobian {n : ℕ} (x y : Fin n → ℝ) (i j : Fin n) :
    HasDerivAt (fun t => exp_adder Real.exp (Function.update x j t) y i)
      (if i = j then 2 * Real.exp (x j) else 0) (x j) ∧
    HasDerivAt (fun t => exp_adder Real.exp x (Function.update y j t) i)
      (if i = j then (3 : ℝ) else 0) (y j) := by
  constructor
  · by_cases h : i = j
    · subst h
      have hfun : (fun t => exp_adder Real.exp (Function.update x i t) y i)
          = fun t => 2 * Real.exp t + 3 * y i := by
        funext t
        simp [exp_adder]
      rw [hfun, if_pos rfl]
      exact ((Real.hasDerivAt_exp (x i)).const_mul 2).add_const (3 * y i)
    · have hfun : (fun t => exp_adder Real.exp (Function.update x j t) y i)
          = fun _ => 2 * Real.exp (x i) + 3 * y i := by
        funext t
        simp [exp_adder, Function.update_apply, h]
      rw [hfun, if_neg h]
      exact hasDerivAt_const (x j) _
  · by_cases h : i = j
    · subst h
      have hfun : (fun t => exp_adder Real.exp x (Function.update y i t) i)
          = fun t => 3 * t + 2 * Real.exp (x i) := by
        funext t
        simp [exp_adder]
        ring
      rw [hfun, if_pos rfl]
      have h3 : HasDerivAt (fun t : ℝ => 3 * t) (3 : ℝ) (y i) := by
        simpa using (hasDerivAt_id (y i)).const_mul (3 : ℝ)
      simpa using h3.add_const (2 * Real.exp (x i))
    · have hfun : (fun t => exp_adder Real.exp x (Function.update y j t) i)
          = fun _ => 2 * Real.exp (x i) + 3 * y i := by
        funext t
        simp [exp_adder, Function.update_apply, h]
      rw [hfun, if_neg h]
      exact hasDerivAt_const (y j) _

end AutogradYT
